import Mathlib

/-!
# Verification of the token-budgeted chunking / selection / extraction pipeline

Shallow embedding of the AI-service module (`chunkByTokens`, `selectRelevantText`,
`extractRelevantSnippets`, `splitIntoSections`, `answerQuestion` escalation control)
of the mineguard repository, together with proofs and refutations of the frozen
claims about it.

Modelling conventions:
* JavaScript strings are modelled as `List Char`; `text.slice(a, b)` (with
  non-negative arguments, the only form the code uses) is `jsSlice`.
* The token oracle is evaluated in its deterministic heuristic mode
  (`MOCK_AI` / fallback): `countTokensForText(s) = Math.ceil(s.length / 4)`,
  i.e. `tokH` below.  The claims under study are all stated against this
  heuristic oracle.
* JavaScript numbers holding character offsets and token counts are
  non-negative integers throughout the modelled code; they are modelled as
  `Nat`.  The single place where an intermediate JS value can be negative
  (`lastEndChar - 10` in the chunker's progress clamp, and the `-1` result of
  `String.lastIndexOf`) is modelled faithfully: the clamp comparison
  `startChar <= lastEndChar - 10` over JS numbers is exactly
  `startChar + 10 ≤ lastEndChar` over `Nat`, and `lastIndexOf` results are `Int`.
* `while` loops are modelled as fuel recursion; the chunker's outer loop can
  genuinely diverge (see the claim C3 development), so its result is an
  `Option`, `none` meaning the fuel was exhausted.
-/

/-- JavaScript whitespace (the `\s` class and the set trimmed by
`String.prototype.trim`), restricted to the code points that can occur in the
texts of this development: space, tab, LF, VT, FF, CR and NBSP. -/
def isWsChar (c : Char) : Bool :=
  c == ' ' || c == '\t' || c == '\n' || c == '\x0b' || c == '\x0c' || c == '\r' || c == ' '

/-- ASCII digit, the `\d` regex class. -/
def isDigitC (c : Char) : Bool :=
  '0' ≤ c && c ≤ '9'

/-- ASCII letter: the `[A-Z]` regex class under the `i` (ignore-case) flag. -/
def isAlphaC (c : Char) : Bool :=
  ('A' ≤ c && c ≤ 'Z') || ('a' ≤ c && c ≤ 'z')

/-- ASCII lower-case letter or digit (what survives in a lower-cased question
after splitting on `/[^a-z0-9]+/`). -/
def isAlnumLower (c : Char) : Bool :=
  ('a' ≤ c && c ≤ 'z') || ('0' ≤ c && c ≤ '9')

/-- Lower-casing, `String.prototype.toLowerCase`, on the ASCII range (the only range the
modelled texts use). -/
def lowerChar (c : Char) : Char :=
  if 'A' ≤ c && c ≤ 'Z' then Char.ofNat (c.toNat + 32) else c

def lowerL (l : List Char) : List Char :=
  l.map lowerChar

/-- The JS `s.slice(a, b)` for `0 ≤ a`, `0 ≤ b`: the characters at indices
`[a, min b s.length)`. -/
def jsSlice (l : List Char) (a b : Nat) : List Char :=
  (l.take b).drop a

/-- The JS `s.trim()`. -/
def jsTrim (l : List Char) : List Char :=
  ((l.dropWhile isWsChar).reverse.dropWhile isWsChar).reverse

/-- The heuristic token oracle: `Math.ceil(s.length / 4)`
(`countTokensForText` in mock mode, and its failure fallback). -/
def tokH (l : List Char) : Nat :=
  (l.length + 3) / 4

/-- Boolean prefix test: `isPrefixL a b = true` iff the list `a` is a prefix of `b`
(Boolean, so that the embedded string functions stay executable). -/
def isPrefixL : List Char → List Char → Bool
  | [], _ => true
  | _ :: _, [] => false
  | a :: as, b :: bs => a == b && isPrefixL as bs

/-- Substring containment `hay.includes(pat)`, as in `String.prototype.includes`. -/
def containsL : List Char → List Char → Bool
  | [], pat => isPrefixL pat []
  | h :: t, pat => isPrefixL pat (h :: t) || containsL t pat

/-- The JS `hay.lastIndexOf(pat)` for a two-character `pat`, as an index count from
`i`; `-1` when absent (helper for `lastIndexOf2`). -/
def lastIndexOf2Aux : List Char → Char → Char → Nat → Int
  | a :: b :: rest, p, q, i =>
    max (if a == p && b == q then (i : Int) else -1) (lastIndexOf2Aux (b :: rest) p q (i + 1))
  | _, _, _, _ => -1

/-- The JS `hay.lastIndexOf(pq)` for the two-character string `pq`: the largest index
where it occurs, `-1` when it does not. -/
def lastIndexOf2 (l : List Char) (p q : Char) : Int :=
  lastIndexOf2Aux l p q 0

/-- The integer-midpoint binary-search loop shared by `chunkByTokens` and the
`selectRelevantText` fallback:

```js
while (low <= high) {
  const mid = Math.floor((low + high) / 2);
  if (pred(mid)) { best = mid; low = mid + 1; } else { high = mid - 1; }
}
return best;
```

`hp` stands for `high + 1`, so that `high = mid - 1` (which may reach `-1` in
JS) stays inside `Nat`; the loop guard `low <= high` is `low < hp`.  `fuel`
bounds the iteration count; any `fuel ≥ hp - low` is enough to reach the
loop's exit (see `bsLoop_threshold`). -/
def bsLoop (p : Nat → Bool) : Nat → Nat → Nat → Nat → Nat
  | 0, _, _, best => best
  | fuel + 1, low, hp, best =>
    if low < hp then
      let mid := (low + (hp - 1)) / 2
      if p mid then bsLoop p fuel (mid + 1) hp mid
      else bsLoop p fuel low mid best
    else best

/-! ## The token-bounded chunker (`chunkByTokens`)

```js
async function chunkByTokens(text, maxTokensPerChunk, overlapTokens) {
  if (!text.trim()) return [];
  const approxCharsPerToken = 4;
  const chunks = []; let startChar = 0; let lastEndChar = 0;
  while (startChar < text.length) {
    let low = startChar + 1;
    let high = Math.min(text.length, startChar + maxTokensPerChunk * approxCharsPerToken * 2);
    let bestEnd = low;
    while (low <= high) { ... binary search on countTokens(text.slice(startChar, mid)) ... }
    let endChar = bestEnd;
    const searchWindow = text.slice(Math.max(startChar, endChar - 400), endChar);
    const lastStop = Math.max(searchWindow.lastIndexOf(".\n"),
                              searchWindow.lastIndexOf(". "),
                              searchWindow.lastIndexOf("\n\n"));
    if (lastStop > 40)
      endChar = Math.max(startChar + 1, endChar - (searchWindow.length - lastStop - 1));
    chunks.push(text.slice(startChar, endChar));
    lastEndChar = endChar;
    if (endChar >= text.length) break;
    const overlapChars = Math.max(0, overlapTokens * 4);
    startChar = Math.max(0, endChar - overlapChars);
    if (startChar <= lastEndChar - 10) startChar = lastEndChar;
  }
  return chunks;
}
```

The embedding records each chunk as its `(startChar, endChar)` span; the
emitted chunk string is `jsSlice text startChar endChar`. -/

/-- The inner binary search: the largest `endChar` in
`[startChar + 1, min(length, startChar + M*4*2)]` whose slice stays within the
token budget (seeded with `startChar + 1`). -/
def bestEndF (text : List Char) (maxTokensPerChunk start : Nat) : Nat :=
  let high := min text.length (start + maxTokensPerChunk * 4 * 2)
  bsLoop (fun mid => tokH (jsSlice text start mid) ≤ maxTokensPerChunk)
    (high + 1) (start + 1) (high + 1) (start + 1)

/-- The chunk's final end offset: the binary-search result, trimmed back to the
latest sentence stop (`".\n"`, `". "` or `"\n\n"`) found beyond offset 40 of the
last-400-character search window. -/
def chunkEnd (text : List Char) (maxTokensPerChunk start : Nat) : Nat :=
  let bestEnd := bestEndF text maxTokensPerChunk start
  let searchWindow := jsSlice text (max start (bestEnd - 400)) bestEnd
  let lastStop := max (max (lastIndexOf2 searchWindow '.' '\n')
                           (lastIndexOf2 searchWindow '.' ' '))
                      (lastIndexOf2 searchWindow '\n' '\n')
  if 40 < lastStop then
    max (start + 1) (bestEnd - (searchWindow.length - lastStop.toNat - 1))
  else bestEnd

/-- The advance step: `startChar = max(0, endChar - overlapTokens*4)`, then the
progress clamp `if (startChar <= lastEndChar - 10) startChar = lastEndChar`
(at this point `lastEndChar = endChar`).  Over `Nat`, `max(0, e - 4V)` is
truncated subtraction, and the JS integer comparison `s ≤ e - 10` is
`s + 10 ≤ e`. -/
def nextStart (overlapTokens e : Nat) : Nat :=
  let s := e - overlapTokens * 4
  if s + 10 ≤ e then e else s

/-- The chunker's outer loop, as fuel recursion over the mutable `startChar`;
`none` when the fuel runs out before the loop exits. -/
def chunkGo (text : List Char) (maxTokensPerChunk overlapTokens : Nat) :
    Nat → Nat → Option (List (Nat × Nat))
  | 0, _ => none
  | fuel + 1, start =>
    if start < text.length then
      let e := chunkEnd text maxTokensPerChunk start
      if text.length ≤ e then some [(start, e)]
      else
        match chunkGo text maxTokensPerChunk overlapTokens fuel
          (nextStart overlapTokens e) with
        | none => none
        | some rest => some ((start, e) :: rest)
    else some []

/-- The function `chunkByTokens`, returning the chunk spans: the empty list on
whitespace-only input, otherwise the loop from `startChar = 0`. -/
def chunkByTokensSpans (fuel : Nat) (text : List Char)
    (maxTokensPerChunk overlapTokens : Nat) : Option (List (Nat × Nat)) :=
  if jsTrim text = [] then some []
  else chunkGo text maxTokensPerChunk overlapTokens fuel 0

/-- The function `chunkByTokens` itself: the chunk strings. -/
def chunkByTokensL (fuel : Nat) (text : List Char)
    (maxTokensPerChunk overlapTokens : Nat) : Option (List (List Char)) :=
  (chunkByTokensSpans fuel text maxTokensPerChunk overlapTokens).map
    (List.map (fun p => jsSlice text p.1 p.2))

/-- Termination predicate: `chunkByTokens` terminates on `text` with the given parameters: some
amount of fuel makes the loop reach its exit. -/
def chunkTerminates (text : List Char) (maxTokensPerChunk overlapTokens : Nat) : Prop :=
  ∃ fuel spans, chunkByTokensSpans fuel text maxTokensPerChunk overlapTokens = some spans

/-- Concatenation of the chunks with each chunk's overlap with its predecessor
removed: chunk `(s, e)` contributes its characters from offset
`prevEnd - s` on (all of them for the first chunk, `prevEnd = 0`). -/
def overlapConcat (text : List Char) : Nat → List (Nat × Nat) → List Char
  | _, [] => []
  | prevEnd, p :: rest =>
    (jsSlice text p.1 p.2).drop (prevEnd - p.1) ++ overlapConcat text p.2 rest

/-! ## The section splitter (`splitIntoSections`)

```js
function splitIntoSections(text) {
  const lines = text.split(/\r?\n/);
  const sections = [];
  let currentTitle = "Introduction";
  let currentBody = [];
  const headerRegex =
    /^(\d+\.|[A-Z][A-Z\s]{2,}|#{1,6}\s+|Section\s+\d+|Policy|Procedure|Scope|Purpose|PPE|Safety|Hazard|Risk|Responsibilities?)/i;
  for (const line of lines) {
    if (headerRegex.test(line.trim())) {
      if (currentBody.length)
        sections.push({ title: currentTitle, body: currentBody.join("\n") });
      currentTitle = line.trim().replace(/^#{1,6}\s+/, "").slice(0, 120);
      currentBody = [];
    } else currentBody.push(line);
  }
  if (currentBody.length)
    sections.push({ title: currentTitle, body: currentBody.join("\n") });
  return sections.filter((s) => s.body.trim().length > 0);
}
```

Note that the whole `headerRegex` carries the `i` flag, so the character class
`[A-Z]` matches both cases. -/

/-- The JS `text.split(/\r?\n/)`: split on `"\n"`, also consuming an immediately
preceding `"\r"`; a `"\r"` not followed by `"\n"` is ordinary content. -/
def splitLinesGo : List Char → List Char → List (List Char)
  | acc, [] => [acc.reverse]
  | acc, '\r' :: '\n' :: rest => acc.reverse :: splitLinesGo [] rest
  | acc, '\n' :: rest => acc.reverse :: splitLinesGo [] rest
  | acc, c :: rest => splitLinesGo (c :: acc) rest

def splitLines (l : List Char) : List (List Char) :=
  splitLinesGo [] l

/-- The regex alternative `\d+\.` anchored at the start: one or more digits
followed by a dot.  (Backtracking cannot help here: any shorter digit run is
followed by another digit, not a dot, so the greedy run is the only candidate.) -/
def matchNumDot (l : List Char) : Bool :=
  let ds := l.takeWhile isDigitC
  decide (ds ≠ []) &&
    (match l.drop ds.length with
     | '.' :: _ => true
     | _ => false)

/-- The regex alternative `[A-Z][A-Z\s]{2,}` under the `i` flag, anchored at
the start: a letter (either case) followed by at least two letters-or-whitespace. -/
def matchCapsRun (l : List Char) : Bool :=
  match l with
  | a :: b :: c :: _ =>
    isAlphaC a && (isAlphaC b || isWsChar b) && (isAlphaC c || isWsChar c)
  | _ => false

/-- The regex alternative `#{1,6}\s+` anchored at the start: between one and
six `#` followed by whitespace.  (With `m ≥ 7` leading hashes every
backtracking choice of `k ≤ 6` hashes is followed by another hash, so the
alternative fails, as in JS.) -/
def matchHashes (l : List Char) : Bool :=
  let hs := l.takeWhile (· == '#')
  decide (1 ≤ hs.length) && decide (hs.length ≤ 6) &&
    (match l.drop hs.length with
     | c :: _ => isWsChar c
     | [] => false)

/-- The regex alternative `Section\s+\d+` under the `i` flag, anchored at the
start (applied to the lower-cased line). -/
def matchSectionNum (low : List Char) : Bool :=
  isPrefixL "section".toList low &&
    (let rest := low.drop 7
     let ws := rest.takeWhile isWsChar
     decide (ws ≠ []) &&
       (match rest.drop ws.length with
        | d :: _ => isDigitC d
        | [] => false))

/-- The fixed-word regex alternatives
`Policy|Procedure|Scope|Purpose|PPE|Safety|Hazard|Risk|Responsibilities?`
under the `i` flag, as lower-cased start-anchored literals.  For
`Responsibilities?` the stem `responsibilitie` suffices: the trailing `s` is
optional, so a test match only needs the stem. -/
def headerWords : List (List Char) :=
  ["policy".toList, "procedure".toList, "scope".toList, "purpose".toList,
   "ppe".toList, "safety".toList, "hazard".toList, "risk".toList,
   "responsibilitie".toList]

/-- The test `headerRegex.test(line.trim())`. -/
def headerTest (line : List Char) : Bool :=
  let t := jsTrim line
  matchNumDot t || matchCapsRun t || matchHashes t ||
    matchSectionNum (lowerL t) || headerWords.any (fun w => isPrefixL w (lowerL t))

/-- The transform `line.trim().replace(/^#{1,6}\s+/, "")`: strip one to six leading hashes
and the whitespace run after them (the greedy `\s+`), when present. -/
def stripHashHeading (l : List Char) : List Char :=
  let hs := l.takeWhile (· == '#')
  if 1 ≤ hs.length ∧ hs.length ≤ 6 then
    match l.drop hs.length with
    | c :: rest => if isWsChar c then (c :: rest).dropWhile isWsChar else l
    | [] => l
  else l

/-- A new section's title: the trimmed line, hash markers stripped, truncated
to 120 characters. -/
def sectionTitle (line : List Char) : List Char :=
  (stripHashHeading (jsTrim line)).take 120

structure Section where
  title : List Char
  body : List Char
deriving DecidableEq, Repr

/-- Interspersed concatenation, `lines.join(sep)`-style (also used for the
snippet divider and `picked.join("")`). -/
def joinSep (sep : List Char) : List (List Char) → List Char
  | [] => []
  | [x] => x
  | x :: y :: rest => x ++ sep ++ joinSep sep (y :: rest)

/-- The line scan of `splitIntoSections`: `curBody` holds the current body
lines in reverse. -/
def splitGo : List (List Char) → List Char → List (List Char) → List Section
  | [], curTitle, curBody =>
    if curBody ≠ [] then [⟨curTitle, joinSep ['\n'] curBody.reverse⟩] else []
  | line :: rest, curTitle, curBody =>
    if headerTest line then
      (if curBody ≠ [] then [⟨curTitle, joinSep ['\n'] curBody.reverse⟩] else []) ++
        splitGo rest (sectionTitle line) []
    else splitGo rest curTitle (line :: curBody)

def splitIntoSections (text : List Char) : List Section :=
  (splitGo (splitLines text) "Introduction".toList []).filter
    (fun s => jsTrim s.body ≠ [])

/-! ## The relevance scorer and the budgeted selector (`selectRelevantText`) -/

/-- The fixed compliance keyword vocabulary of `scoreSectionForCompliance`. -/
def complianceKeywords : List (List Char) :=
  ["policy".toList, "procedure".toList, "ppe".toList,
   "personal protective equipment".toList, "safety".toList, "hazard".toList,
   "risk".toList, "control".toList, "responsibilities".toList,
   "training".toList, "inspection".toList, "maintenance".toList,
   "isolation".toList, "lockout".toList, "permit".toList]

/-- The scorer `scoreSectionForCompliance`: +2 for each vocabulary keyword present in the
lower-cased `title\nbody`. -/
def scoreSectionForCompliance (s : Section) : Nat :=
  let t := lowerL (s.title ++ '\n' :: s.body)
  complianceKeywords.foldl (fun acc k => if containsL t k then acc + 2 else acc) 0

/-- The string a section's tokens are counted on: `=== ${title} ===\n${body}`. -/
def secText (s : Section) : List Char :=
  "=== ".toList ++ s.title ++ " ===\n".toList ++ s.body

/-- The string a picked section contributes: `\n\n=== ${title} ===\n${body}`. -/
def pickText (s : Section) : List Char :=
  "\n\n=== ".toList ++ s.title ++ " ===\n".toList ++ s.body

structure ScoredSec where
  sec : Section
  kw : Nat
  tokens : Nat
deriving DecidableEq, Repr

/-- The selector's composite ranking score is
`kw + max(0, 1000 - tokens) / 1000` over JS floats, with `kw` an even integer
`≤ 30` and the fractional part a multiple of `1/1000` in `[0, 1]`; comparisons
of such values are exact in double precision and agree with the integer
rescaling `1000*kw + max(0, 1000 - tokens)` used here. -/
def compositeN (r : ScoredSec) : Nat :=
  1000 * r.kw + (1000 - r.tokens)

/-- Stable descending insertion by composite score.  `Array.prototype.sort` is
specified stable, and a stable sort w.r.t. the total preorder induced by the
comparator `(a, b) => bScore - aScore` is unique, so any implementation of it
agrees with this one: an element is placed before exactly those earlier
elements whose score is strictly smaller. -/
def insertRanked (x : ScoredSec) : List ScoredSec → List ScoredSec
  | [] => [x]
  | y :: ys =>
    if compositeN y ≤ compositeN x then x :: y :: ys else y :: insertRanked x ys

def sortRanked : List ScoredSec → List ScoredSec
  | [] => []
  | x :: xs => insertRanked x (sortRanked xs)

/-- Sections of the text scored (`kw`, token count of `secText`) and ranked by
descending composite score. -/
def rankedOf (text : List Char) : List ScoredSec :=
  sortRanked ((splitIntoSections text).map
    (fun s => ⟨s, scoreSectionForCompliance s, tokH (secText s)⟩))

/-- The greedy accumulation loop of `selectRelevantText`:

```js
for (const r of ranked) {
  if (used + r.tokens > maxTokens) continue;
  picked.push(secText); used += r.tokens;
  if (used >= maxTokens) break;
}
``` -/
def greedyGo (budget : Nat) : Nat → List ScoredSec → List ScoredSec
  | _, [] => []
  | used, r :: rest =>
    if budget < used + r.tokens then greedyGo budget used rest
    else r :: (if budget ≤ used + r.tokens then [] else
      greedyGo budget (used + r.tokens) rest)

/-- The spec's reading of step 4 of the selector (the claim C5 wording): a
section is accepted exactly when the running total plus its own token count
stays within the budget; a section that does not fit is skipped and the scan
continues.  Stated from the spec, to be compared with the embedded `greedyGo`. -/
def skipScan (budget : Nat) : Nat → List ScoredSec → List ScoredSec
  | _, [] => []
  | used, r :: rest =>
    if used + r.tokens ≤ budget then r :: skipScan budget (used + r.tokens) rest
    else skipScan budget used rest

/-- The selector's zero-picked fallback: binary-search the longest character
prefix of the raw text whose token count fits the budget (`low = 0`,
`high = min(length, budget*8)`), returning `text.slice(0, best ||
Math.min(text.length, maxTokens * 4))`. -/
def selectFallback (text : List Char) (maxTokens : Nat) : List Char :=
  let high := min text.length (maxTokens * 8)
  let best := bsLoop (fun mid => tokH (jsSlice text 0 mid) ≤ maxTokens)
    (high + 1) 0 (high + 1) 0
  jsSlice text 0 (if best = 0 then min text.length (maxTokens * 4) else best)

/-- The function `selectRelevantText` with the heuristic oracle. -/
def selectRelevantText (text : List Char) (maxTokens : Nat) : List Char :=
  let picked := (greedyGo maxTokens 0 (rankedOf text)).map (fun r => pickText r.sec)
  if picked = [] then selectFallback text maxTokens else picked.flatten

/-! ## The Q&A snippet extractor (`extractRelevantSnippets`)

Overlapping sliding windows scored by capped keyword frequency; the top-K
windows joined by `"\n\n---\n\n"`.  The only floating-point quantity,
`overlapRatio` (clamped to `[0.1, 0.9]`), is modelled in exact per-mille
fixed point (`ovPm = 1000 * overlapRatio : Nat`): for every ratio the code
passes (`0.5` and `0.6`, plus the clamp bounds `0.1`/`0.9`), the computed
`stride = max(1, Math.floor(windowChars * (1 - ratio)))` equals
`max 1 (windowChars * (1000 - ovPm) / 1000)` — those products round the same
way in double precision as over the exact rationals. -/

/-- The maximal runs of `[a-z0-9]` characters of a lower-cased string: the
pieces of `lowerQ.split(/[^a-z0-9]+/)` minus the empty boundary pieces, which
the subsequent `length > 2` filter discards anyway.  `cur` holds the current
run in reverse (`none` while between runs). -/
def alnumRunsGo : Option (List Char) → List Char → List (List Char)
  | cur, [] =>
    (match cur with
     | some r => [r.reverse]
     | none => [])
  | cur, c :: rest =>
    if isAlnumLower c then
      match cur with
      | some r => alnumRunsGo (some (c :: r)) rest
      | none => alnumRunsGo (some [c]) rest
    else
      match cur with
      | some r => r.reverse :: alnumRunsGo none rest
      | none => alnumRunsGo none rest

def alnumRuns (l : List Char) : List (List Char) :=
  alnumRunsGo none l

/-- De-duplication preserving first occurrences (`Array.from(new Set(...))`). -/
def dedupFirst (seen : List (List Char)) : List (List Char) → List (List Char)
  | [] => []
  | x :: xs =>
    if seen.contains x then dedupFirst seen xs
    else x :: dedupFirst (x :: seen) xs

/-- The question's keyword set: lower-case, split on non-alphanumeric runs,
keep words of length `> 2`, de-duplicate keeping first occurrences. -/
def questionKeywords (question : List Char) : List (List Char) :=
  dedupFirst [] ((alnumRuns (lowerL question)).filter (fun w => 2 < w.length))

/-- Non-overlapping left-to-right occurrence count,
`hay.split(pat).length - 1`; the fuel is the length of the haystack, which
each step consumes at least one character of. -/
def countOccGo (pat : List Char) : Nat → List Char → Nat
  | 0, _ => 0
  | _ + 1, [] => 0
  | fuel + 1, h :: t =>
    if isPrefixL pat (h :: t) then
      1 + countOccGo pat fuel (t.drop (pat.length - 1))
    else countOccGo pat fuel t

def countOcc (pat hay : List Char) : Nat :=
  countOccGo pat hay.length hay

structure ScoredWindow where
  s : List Char
  score : Nat
deriving DecidableEq, Repr

/-- A window's score: for each keyword with at least one occurrence in the
lower-cased window, add `min(occurrences * 2, 10)`. -/
def windowScore (keywords : List (List Char)) (win : List Char) : Nat :=
  let l := lowerL win
  keywords.foldl
    (fun acc k =>
      let occ := countOcc k l
      if 0 < occ then acc + min (occ * 2) 10 else acc)
    0

/-- The sliding-window loop
`for (let start = 0; start < text.length; start += stride) { ...; if (end >= text.length) break; }`;
`stride ≥ 1`, so fuel `text.length + 1` always reaches the exit. -/
def windowsGo (text : List Char) (keywords : List (List Char)) (windowChars stride : Nat) :
    Nat → Nat → List ScoredWindow
  | 0, _ => []
  | fuel + 1, start =>
    if start < text.length then
      let e := min text.length (start + windowChars)
      let win := jsSlice text start e
      let cand : ScoredWindow := ⟨win, windowScore keywords win⟩
      if text.length ≤ e then [cand]
      else cand :: windowsGo text keywords windowChars stride fuel (start + stride)
    else []

/-- Stable descending insertion by window score (`sort((a, b) => b.score - a.score)`;
stability as for `insertRanked`). -/
def insertWin (x : ScoredWindow) : List ScoredWindow → List ScoredWindow
  | [] => [x]
  | y :: ys => if y.score ≤ x.score then x :: y :: ys else y :: insertWin x ys

def sortWins : List ScoredWindow → List ScoredWindow
  | [] => []
  | x :: xs => insertWin x (sortWins xs)

/-- The clamp `Math.min(Math.max(options?.overlapRatio ?? 0.5, 0.1), 0.9)` in
per-mille fixed point. -/
def clampRatioPm (ovPm : Nat) : Nat :=
  min (max ovPm 100) 900

/-- The stride `Math.max(1, Math.floor(windowChars * (1 - overlapRatio)))` in
per-mille fixed point. -/
def strideOf (windowChars ovPm : Nat) : Nat :=
  max 1 (windowChars * (1000 - clampRatioPm ovPm) / 1000)

/-- The top `max(1, topK ?? 3)` windows by descending score. -/
def topWindowsOf (text question : List Char) (targetTokens : Nat)
    (topKOpt ovPmOpt : Option Nat) : List ScoredWindow :=
  let keywords := questionKeywords question
  let windowChars := targetTokens * 4
  let stride := strideOf windowChars (ovPmOpt.getD 500)
  let candidates := windowsGo text keywords windowChars stride (text.length + 1) 0
  (sortWins candidates).take (max 1 (topKOpt.getD 3))

/-- The function `extractRelevantSnippets` with the heuristic oracle. -/
def extractRelevantSnippets (text question : List Char) (targetTokens : Nat)
    (topKOpt ovPmOpt : Option Nat) : List Char :=
  let keywords := questionKeywords question
  if keywords = [] then jsSlice text 0 (min text.length (targetTokens * 4))
  else
    let top := topWindowsOf text question targetTokens topKOpt ovPmOpt
    if top = [] then jsSlice text 0 (min text.length (targetTokens * 4))
    else joinSep "\n\n---\n\n".toList (top.map (fun w => w.s))

/-! ## The two-pass answer escalation controller (`answerQuestion`)

The two completion calls are external; their results (answer text plus token
usage) enter the model as the values `pass1` and `pass2`.  The controller's
decision logic and cost accounting are the embedded part:

```js
let totalInput = usage1.inputTokens;
let totalOutput = usage1.outputTokens;
const lowConfidence =
  /can't find|insufficient context|not provided|unclear|unspecified/i.test(firstAnswer);
if (!lowConfidence) return { answer: firstAnswer, usage: usage1, ... };
... second call ...
totalInput += usage2.inputTokens;
totalOutput += usage2.outputTokens;
return { answer: answer2, usage: { model, totalInput, totalOutput }, ... };
``` -/

structure AIUsage where
  inputTokens : Nat
  outputTokens : Nat
deriving DecidableEq, Repr

structure PassResult where
  answer : List Char
  usage : AIUsage
deriving DecidableEq, Repr

/-- The fixed low-confidence marker phrases of the escalation regex
`/can't find|insufficient context|not provided|unclear|unspecified/i`. -/
def lowConfidenceMarkers : List (List Char) :=
  ["can't find".toList, "insufficient context".toList, "not provided".toList,
   "unclear".toList, "unspecified".toList]

/-- The case-insensitive marker test on the first-pass answer. -/
def lowConfidence (answer : List Char) : Bool :=
  lowConfidenceMarkers.any (fun m => containsL (lowerL answer) m)

/-- The controller: the returned pass result together with the number of
completion passes issued (1 or 2).  On escalation the usage is the sum of both
passes' token counts. -/
def answerQuestionFlow (pass1 pass2 : PassResult) : PassResult × Nat :=
  let totalInput := pass1.usage.inputTokens
  let totalOutput := pass1.usage.outputTokens
  if !lowConfidence pass1.answer then (pass1, 1)
  else
    (⟨pass2.answer,
      ⟨totalInput + pass2.usage.inputTokens, totalOutput + pass2.usage.outputTokens⟩⟩, 2)

/-- When the probe is a threshold predicate `fun m => m ≤ B` on the probed
range, the binary-search loop returns the largest in-range value `≤ B` (or
`best`, its seed, if none is). -/
theorem bsLoop_threshold (p : Nat → Bool) (B : Nat) :
    ∀ fuel low hp best, hp - low ≤ fuel →
      (∀ m, low ≤ m → m < hp → (p m = true ↔ m ≤ B)) →
      bsLoop p fuel low hp best =
        if low < hp then (if B < low then best else min (hp - 1) B) else best := by
  intro fuel
  induction fuel with
  | zero =>
    intro low hp best hfuel _
    have : ¬ low < hp := by omega
    simp [bsLoop, this]
  | succ n ih =>
    intro low hp best hfuel hp_thresh
    by_cases hlh : low < hp
    · have hmid_lb : low ≤ (low + (hp - 1)) / 2 := by omega
      have hmid_ub : (low + (hp - 1)) / 2 < hp := by omega
      rw [bsLoop]
      rw [if_pos hlh]
      by_cases hp_mid : p ((low + (hp - 1)) / 2) = true
      · have hmB : (low + (hp - 1)) / 2 ≤ B :=
          (hp_thresh _ hmid_lb hmid_ub).1 hp_mid
        rw [if_pos hp_mid]
        rw [ih _ _ _ (by omega) (fun m hm hm' => hp_thresh m (by omega) hm')]
        rw [if_pos hlh, if_neg (show ¬ B < low by omega)]
        split_ifs <;> first | rfl | omega
      · have hBm : B < (low + (hp - 1)) / 2 := by
          by_contra hc
          exact hp_mid ((hp_thresh _ hmid_lb hmid_ub).2 (by omega))
        rw [if_neg hp_mid]
        rw [ih _ _ _ (by omega) (fun m hm hm' => hp_thresh m hm (by omega))]
        rw [if_pos hlh]
        split_ifs <;> first | rfl | omega
    · rw [bsLoop]
      simp [hlh]

theorem jsSlice_length (l : List Char) (a b : Nat) :
    (jsSlice l a b).length = min b l.length - a := by
  simp [jsSlice]

/-- Consecutive slices concatenate. -/
theorem jsSlice_append (l : List Char) (a b c : Nat) (hab : a ≤ b) (hbc : b ≤ c) :
    jsSlice l a b ++ jsSlice l b c = jsSlice l a c := by
  unfold jsSlice
  rw [show l.take b = (l.take c).take b by rw [List.take_take, Nat.min_eq_left hbc]]
  generalize l.take c = m
  by_cases h : a ≤ min b m.length
  · conv_rhs => rw [← List.take_append_drop b m]
    rw [List.drop_append_eq_append_drop]
    have h1 : a - (m.take b).length = 0 := by
      rw [List.length_take]
      omega
    rw [h1, List.drop_zero]
  · have hml : m.length ≤ a := by omega
    have h2 : (m.take b).drop a = [] := by
      apply List.drop_eq_nil_of_le
      rw [List.length_take]
      omega
    have h3 : m.drop b = [] := List.drop_eq_nil_of_le (by omega)
    have h4 : m.drop a = [] := List.drop_eq_nil_of_le hml
    rw [h2, h3, h4]
    rfl

/-- Dropping an initial overlap from a slice is slicing further right. -/
theorem jsSlice_drop (l : List Char) (s p e : Nat) (hsp : s ≤ p) :
    (jsSlice l s e).drop (p - s) = jsSlice l p e := by
  unfold jsSlice
  rw [List.drop_drop]
  congr 1
  omega

theorem lastIndexOf2Aux_lt (p q : Char) :
    ∀ (l : List Char) (i : Nat), lastIndexOf2Aux l p q i < (i : Int) + l.length := by
  intro l
  induction l with
  | nil =>
    intro i
    simp only [lastIndexOf2Aux, List.length_nil, Nat.cast_zero, add_zero]
    omega
  | cons a t ih =>
    intro i
    cases t with
    | nil =>
      simp only [lastIndexOf2Aux, List.length_cons, List.length_nil]
      omega
    | cons b r =>
      have h1 := ih (i + 1)
      rw [lastIndexOf2Aux]
      rw [max_lt_iff]
      constructor
      · split
        · simp only [List.length_cons]
          omega
        · simp only [List.length_cons]
          omega
      · simp only [List.length_cons] at h1 ⊢
        push_cast at h1 ⊢
        omega

theorem lastIndexOf2_lt (l : List Char) (p q : Char) :
    lastIndexOf2 l p q < (l.length : Int) := by
  have := lastIndexOf2Aux_lt p q l 0
  simpa [lastIndexOf2] using this

/-- Under the heuristic oracle the chunker's binary search lands on
`min(text.length, startChar + maxTokensPerChunk * 4)`. -/
theorem bestEndF_eq (text : List Char) (M start : Nat) (hM : 1 ≤ M)
    (hs : start < text.length) :
    bestEndF text M start = min text.length (start + M * 4) := by
  unfold bestEndF
  rw [bsLoop_threshold _ (start + M * 4) _ _ _ _ (by omega)]
  · have hlow : start + 1 ≤ min text.length (start + M * 4 * 2) := by omega
    rw [if_pos (by omega), if_neg (by omega)]
    omega
  · intro m hm hm'
    rw [decide_eq_true_iff]
    have hmL : m ≤ text.length := by omega
    have : (jsSlice text start m).length = m - start := by
      rw [jsSlice_length]
      omega
    unfold tokH
    rw [this]
    omega

theorem chunkEnd_le_bestEnd (text : List Char) (M start : Nat) (hM : 1 ≤ M)
    (hs : start < text.length) :
    chunkEnd text M start ≤ bestEndF text M start := by
  have hbe : start + 1 ≤ bestEndF text M start := by
    rw [bestEndF_eq text M start hM hs]
    omega
  simp only [chunkEnd]
  split
  · next hstop =>
    apply max_le hbe
    omega
  · exact le_refl _

theorem chunkEnd_lb (text : List Char) (M start : Nat) (hM : 1 ≤ M)
    (hs : start < text.length) :
    start + 1 ≤ chunkEnd text M start := by
  have hbe : start + 1 ≤ bestEndF text M start := by
    rw [bestEndF_eq text M start hM hs]
    omega
  simp only [chunkEnd]
  split
  · exact le_max_left _ _
  · exact hbe

theorem chunkEnd_le_len (text : List Char) (M start : Nat) (hM : 1 ≤ M)
    (hs : start < text.length) :
    chunkEnd text M start ≤ text.length := by
  have h := chunkEnd_le_bestEnd text M start hM hs
  rw [bestEndF_eq text M start hM hs] at h
  omega

theorem chunkEnd_le_budget (text : List Char) (M start : Nat) (hM : 1 ≤ M)
    (hs : start < text.length) :
    chunkEnd text M start ≤ start + M * 4 := by
  have h := chunkEnd_le_bestEnd text M start hM hs
  rw [bestEndF_eq text M start hM hs] at h
  omega

/-- The sentence-stop trim either leaves the binary-search end unchanged or
moves the end to a stop at least 42 characters past the chunk start. -/
theorem chunkEnd_cases (text : List Char) (M start : Nat) (hM : 1 ≤ M)
    (hs : start < text.length) :
    chunkEnd text M start = bestEndF text M start ∨
      start + 42 ≤ chunkEnd text M start := by
  have hbeL : bestEndF text M start ≤ text.length := by
    rw [bestEndF_eq text M start hM hs]
    omega
  simp only [chunkEnd]
  split
  · next hstop =>
    right
    set be := bestEndF text M start with hbe
    set ws := max start (be - 400) with hws
    have hsb : start + 1 ≤ be := by
      rw [hbe, bestEndF_eq text M start hM hs]
      omega
    have hwlen : (jsSlice text ws be).length = be - ws := by
      rw [jsSlice_length]
      omega
    have h1 := lastIndexOf2_lt (jsSlice text ws be) '.' '\n'
    have h2 := lastIndexOf2_lt (jsSlice text ws be) '.' ' '
    have h3 := lastIndexOf2_lt (jsSlice text ws be) '\n' '\n'
    have hX := max_lt (max_lt h1 h2) h3
    rw [hwlen] at hX ⊢
    omega
  · left
    rfl

theorem nextStart_le (V e : Nat) : nextStart V e ≤ e := by
  simp only [nextStart]
  split <;> omega

/-- With a chunk budget of at most 2 tokens the search window is at most 8
characters, so the sentence-stop trim never fires and a mid-text chunk ends
exactly `4·M` characters after its start. -/
theorem chunkEnd_small (text : List Char) (M start : Nat) (hM : 1 ≤ M) (hM2 : M ≤ 2)
    (hlt : start + M * 4 < text.length) :
    chunkEnd text M start = start + M * 4 := by
  have hs : start < text.length := by omega
  have hbe : bestEndF text M start = start + M * 4 := by
    rw [bestEndF_eq text M start hM hs]
    omega
  simp only [chunkEnd]
  rw [hbe]
  have hws : max start (start + M * 4 - 400) = start := by omega
  rw [hws]
  have hwlen : (jsSlice text start (start + M * 4)).length = M * 4 := by
    rw [jsSlice_length]
    omega
  have h1 := lastIndexOf2_lt (jsSlice text start (start + M * 4)) '.' '\n'
  have h2 := lastIndexOf2_lt (jsSlice text start (start + M * 4)) '.' ' '
  have h3 := lastIndexOf2_lt (jsSlice text start (start + M * 4)) '\n' '\n'
  have hX := max_lt (max_lt h1 h2) h3
  rw [hwlen] at hX
  rw [if_neg (by omega)]

/-- The divergence invariant: with `M ≤ 2`, `M ≤ V`, and more than `4·M`
characters of text left, a state whose overlap is under the 10-character slack
(or which is the origin itself) never leaves the loop: the advance is
non-positive and the clamp never fires. -/
theorem chunkGo_none_small (text : List Char) (M V : Nat) (hM : 1 ≤ M) (hM2 : M ≤ 2)
    (hMV : M ≤ V) :
    ∀ fuel start, start + M * 4 < text.length → (V * 4 ≤ 9 ∨ start = 0) →
      chunkGo text M V fuel start = none := by
  intro fuel
  induction fuel with
  | zero =>
    intro s _ _
    rfl
  | succ n ih =>
    intro s hsL hinv
    simp only [chunkGo]
    rw [if_pos (show s < text.length by omega)]
    rw [chunkEnd_small text M s hM hM2 hsL]
    rw [if_neg (show ¬ text.length ≤ s + M * 4 by omega)]
    have hnc : nextStart V (s + M * 4) = s + M * 4 - V * 4 := by
      simp only [nextStart]
      rw [if_neg (by omega)]
    rw [hnc, ih (s + M * 4 - V * 4) (by omega) (by omega)]

/-- With a chunk budget of at least 3 tokens every advance strictly increases
the chunk end: the clamp, the `≥ 42`-offset sentence trim, hitting the end of
text, and the untrimmed `4·M ≥ 12`-character budget each outrun the at-most-9
character overlap left by a non-clamped advance. -/
theorem chunkEnd_next_gt_three (text : List Char) (M V : Nat) (hM3 : 3 ≤ M) (s : Nat)
    (hs : s < text.length) (hE : chunkEnd text M s < text.length) :
    chunkEnd text M s < chunkEnd text M (nextStart V (chunkEnd text M s)) := by
  have hM : 1 ≤ M := by omega
  set e := chunkEnd text M s with he
  have he1 : s + 1 ≤ e := chunkEnd_lb text M s hM hs
  by_cases hclamp : e - V * 4 + 10 ≤ e
  · have hcl : nextStart V e = e := by
      simp only [nextStart]
      rw [if_pos hclamp]
    rw [hcl]
    have := chunkEnd_lb text M e hM (by omega)
    omega
  · have hs' : nextStart V e = e - V * 4 := by
      simp only [nextStart]
      rw [if_neg hclamp]
    rw [hs']
    have hgap : e - (e - V * 4) ≤ 9 := by omega
    have hs'L : e - V * 4 < text.length := by omega
    rcases chunkEnd_cases text M (e - V * 4) hM hs'L with hcase | hcase
    · rw [hcase, bestEndF_eq text M (e - V * 4) hM hs'L]
      omega
    · omega

/-- The general step lemma: for any `M ≥ 1`, if the loop continues past a
chunk ending at `e < length` and the rest of the run terminates, the next
chunk's end strictly exceeds `e`.  (If it did not, the parameters would be in
the `chunkGo_none_small` regime and the run could not terminate.) -/
theorem chunkEnd_next_gt (text : List Char) (M V : Nat) (hM : 1 ≤ M) (s : Nat)
    (hs : s < text.length) (hE : chunkEnd text M s < text.length)
    (hterm : ∃ fuel r, chunkGo text M V fuel (nextStart V (chunkEnd text M s)) = some r) :
    chunkEnd text M s < chunkEnd text M (nextStart V (chunkEnd text M s)) := by
  set e := chunkEnd text M s with he
  have he1 : s + 1 ≤ e := chunkEnd_lb text M s hM hs
  by_cases hclamp : e - V * 4 + 10 ≤ e
  · have hcl : nextStart V e = e := by
      simp only [nextStart]
      rw [if_pos hclamp]
    rw [hcl]
    have := chunkEnd_lb text M e hM (by omega)
    omega
  · have hs' : nextStart V e = e - V * 4 := by
      simp only [nextStart]
      rw [if_neg hclamp]
    rw [hs'] at hterm ⊢
    have hgap : e - (e - V * 4) ≤ 9 := by omega
    have hs'L : e - V * 4 < text.length := by omega
    rcases chunkEnd_cases text M (e - V * 4) hM hs'L with hcase | hcase
    · rw [hcase, bestEndF_eq text M (e - V * 4) hM hs'L]
      by_cases hbad : M * 4 ≤ e - (e - V * 4)
      · exfalso
        obtain ⟨fuel, r, hr⟩ := hterm
        rw [chunkGo_none_small text M V hM (by omega) (by omega) fuel (e - V * 4)
          (by omega) (by omega)] at hr
        cases hr
      · omega
    · omega

/-- A successful run from `s` starts with the chunk `(s, chunkEnd text M s)`. -/
theorem chunkGo_some_head (text : List Char) (M V : Nat) :
    ∀ fuel s spans, s < text.length → chunkGo text M V fuel s = some spans →
      ∃ rest, spans = (s, chunkEnd text M s) :: rest := by
  intro fuel s spans hs hgo
  cases fuel with
  | zero => cases hgo
  | succ n =>
    simp only [chunkGo] at hgo
    rw [if_pos hs] at hgo
    by_cases hLe : text.length ≤ chunkEnd text M s
    · rw [if_pos hLe] at hgo
      exact ⟨[], by injection hgo with h; rw [← h]⟩
    · rw [if_neg hLe] at hgo
      cases hrec : chunkGo text M V n (nextStart V (chunkEnd text M s)) with
      | none =>
        rw [hrec] at hgo
        cases hgo
      | some rest =>
        rw [hrec] at hgo
        exact ⟨rest, by injection hgo with h; rw [← h]⟩

/-- The trace specification of a terminating chunker run from `s`: the spans
start at `s`; every span is non-degenerate, within the text, and within the
character budget; consecutive spans are linked by the advance step, overlap
(`q.1 ≤ p.2`) and strictly grow (`p.2 < q.2`); and the last span ends exactly
at the end of the text. -/
theorem chunkGo_spec (text : List Char) (M V : Nat) (hM : 1 ≤ M) :
    ∀ fuel s spans, s < text.length → chunkGo text M V fuel s = some spans →
      spans ≠ [] ∧
      spans.head? = some (s, chunkEnd text M s) ∧
      (∀ p ∈ spans, p.1 < p.2 ∧ p.2 ≤ text.length ∧ p.2 ≤ p.1 + M * 4) ∧
      List.Chain' (fun p q => q.1 = nextStart V p.2 ∧ q.1 ≤ p.2 ∧ p.2 < q.2) spans ∧
      (∃ last, spans.getLast? = some last ∧ last.2 = text.length) := by
  intro fuel
  induction fuel with
  | zero =>
    intro s spans _ hgo
    cases hgo
  | succ n ih =>
    intro s spans hs hgo
    simp only [chunkGo] at hgo
    rw [if_pos hs] at hgo
    have hbounds := And.intro (chunkEnd_lb text M s hM hs)
      (And.intro (chunkEnd_le_len text M s hM hs) (chunkEnd_le_budget text M s hM hs))
    by_cases hLe : text.length ≤ chunkEnd text M s
    · rw [if_pos hLe] at hgo
      injection hgo with hgo
      subst hgo
      refine ⟨by simp, by simp, ?_, ?_, ⟨(s, chunkEnd text M s), by simp, by omega⟩⟩
      · intro p hp
        rw [List.mem_singleton] at hp
        subst hp
        exact ⟨by omega, by omega, by omega⟩
      · simp
    · rw [if_neg hLe] at hgo
      cases hrec : chunkGo text M V n (nextStart V (chunkEnd text M s)) with
      | none =>
        rw [hrec] at hgo
        cases hgo
      | some rest =>
        rw [hrec] at hgo
        injection hgo with hgo
        subst hgo
        have hs' : nextStart V (chunkEnd text M s) < text.length :=
          lt_of_le_of_lt (nextStart_le V (chunkEnd text M s)) (by omega)
        obtain ⟨hne, hhead, hmem, hchain, last, hlast, hlastL⟩ := ih _ rest hs' hrec
        have hgrow : chunkEnd text M s <
            chunkEnd text M (nextStart V (chunkEnd text M s)) :=
          chunkEnd_next_gt text M V hM s hs (by omega) ⟨n, rest, hrec⟩
        refine ⟨by simp, by simp, ?_, ?_, ⟨last, ?_, hlastL⟩⟩
        · intro p hp
          rcases List.mem_cons.mp hp with hp | hp
          · subst hp
            exact ⟨by omega, by omega, by omega⟩
          · exact hmem p hp
        · rw [List.chain'_cons']
          refine ⟨?_, hchain⟩
          intro q hq
          rw [hhead] at hq
          injection hq with hq
          subst hq
          exact ⟨rfl, nextStart_le V _, hgrow⟩
        · cases rest with
          | nil => exact absurd rfl hne
          | cons b t =>
            rw [List.getLast?_cons_cons]
            exact hlast

/-- With a chunk budget of at least 3 tokens, fuel `length + 1 - chunkEnd`
always reaches the loop exit: each iteration strictly increases the chunk end. -/
theorem chunkGo_some_of_three (text : List Char) (M V : Nat) (hM3 : 3 ≤ M) :
    ∀ fuel s, s < text.length → text.length + 1 ≤ fuel + chunkEnd text M s →
      ∃ spans, chunkGo text M V fuel s = some spans := by
  have hM : 1 ≤ M := by omega
  intro fuel
  induction fuel with
  | zero =>
    intro s hs hfuel
    have := chunkEnd_le_len text M s hM hs
    omega
  | succ n ih =>
    intro s hs hfuel
    simp only [chunkGo]
    rw [if_pos hs]
    by_cases hLe : text.length ≤ chunkEnd text M s
    · rw [if_pos hLe]
      exact ⟨_, rfl⟩
    · rw [if_neg hLe]
      have hs' : nextStart V (chunkEnd text M s) < text.length :=
        lt_of_le_of_lt (nextStart_le V (chunkEnd text M s)) (by omega)
      have hgrow := chunkEnd_next_gt_three text M V hM3 s hs (by omega)
      obtain ⟨spans', h'⟩ := ih (nextStart V (chunkEnd text M s)) hs' (by omega)
      rw [h']
      exact ⟨_, rfl⟩

/-- Trimming the empty string gives the empty string, so a trim-nonempty text is nonempty. -/
theorem length_pos_of_jsTrim_ne_nil (text : List Char) (h : jsTrim text ≠ []) :
    0 < text.length := by
  cases text with
  | nil => exact absurd rfl h
  | cons a t => simp

/-- Reassembly: under the trace invariants, concatenating the chunks with
predecessor overlaps dropped yields the text from `prevEnd` to the end. -/
theorem overlapConcat_eq (text : List Char) :
    ∀ rest p prevEnd, p.1 ≤ prevEnd → prevEnd ≤ p.2 →
      (∀ q ∈ p :: rest, q.1 < q.2 ∧ q.2 ≤ text.length) →
      List.Chain' (fun p q => q.1 ≤ p.2 ∧ p.2 < q.2) (p :: rest) →
      (∃ last, (p :: rest).getLast? = some last ∧ last.2 = text.length) →
      overlapConcat text prevEnd (p :: rest) = jsSlice text prevEnd text.length := by
  intro rest
  induction rest with
  | nil =>
    intro p prevEnd hp1 hp2 hmem _ hlast
    obtain ⟨last, hl, hlL⟩ := hlast
    simp only [List.getLast?_singleton] at hl
    injection hl with hl
    subst hl
    simp only [overlapConcat, List.append_nil]
    rw [jsSlice_drop text p.1 prevEnd p.2 hp1, hlL]
  | cons q rest' ihq =>
    intro p prevEnd hp1 hp2 hmem hchain hlast
    obtain ⟨last, hl, hlL⟩ := hlast
    rw [List.getLast?_cons_cons] at hl
    rw [List.chain'_cons] at hchain
    obtain ⟨⟨hq1, hq2⟩, hchain'⟩ := hchain
    have hpL : p.2 ≤ text.length := (hmem p (by simp)).2
    rw [overlapConcat]
    rw [ihq q p.2 hq1 (by omega) (fun r hr => hmem r (List.mem_cons_of_mem p hr))
      hchain' ⟨last, hl, hlL⟩]
    rw [jsSlice_drop text p.1 prevEnd p.2 hp1]
    exact jsSlice_append text prevEnd p.2 text.length hp2 hpL

/-- Under `10 ≤ 4·V`, a chunk at least `4·V` characters long makes the clamp
fire, so the advance restarts exactly at the chunk's end. -/
theorem nextStart_eq_self (V e len : Nat) (hV : 10 ≤ V * 4) (hle : V * 4 ≤ len)
    (hlen : len ≤ e) : nextStart V e = e := by
  simp only [nextStart]
  rw [if_pos (by omega)]

/-- Adjacent spans of a run whose chunks are all at least `4·V` long (with
`10 ≤ 4·V`) start exactly at their predecessor's end. -/
theorem chain_eq_of_wide (V : Nat) (hV : 10 ≤ V * 4) :
    ∀ spans : List (Nat × Nat),
      List.Chain' (fun p q => q.1 = nextStart V p.2 ∧ q.1 ≤ p.2 ∧ p.2 < q.2) spans →
      (∀ p ∈ spans, V * 4 ≤ p.2 - p.1) →
      List.Chain' (fun p q : Nat × Nat => q.1 = p.2) spans := by
  intro spans
  induction spans with
  | nil =>
    intro _ _
    exact List.chain'_nil
  | cons p rest ih =>
    intro hchain hlen
    cases rest with
    | nil => exact List.chain'_singleton p
    | cons q t =>
      rw [List.chain'_cons] at hchain ⊢
      obtain ⟨⟨h1, _, _⟩, hchain'⟩ := hchain
      have hw := hlen p (by simp)
      refine ⟨?_, ih hchain' (fun r hr => hlen r (List.mem_cons_of_mem p hr))⟩
      rw [h1, nextStart_eq_self V p.2 (p.2 - p.1) hV hw (by omega)]

/-- When consecutive spans meet exactly, the overlap-dropping concatenation is
the plain concatenation of the chunks. -/
theorem overlapConcat_eq_flatten (text : List Char) :
    ∀ (rest : List (Nat × Nat)) (p : Nat × Nat),
      List.Chain' (fun p q : Nat × Nat => q.1 = p.2) (p :: rest) →
      overlapConcat text p.1 (p :: rest) =
        ((p :: rest).map (fun r => jsSlice text r.1 r.2)).flatten := by
  intro rest
  induction rest with
  | nil =>
    intro p _
    simp [overlapConcat]
  | cons q t ih =>
    intro p hchain
    rw [List.chain'_cons] at hchain
    obtain ⟨h1, hchain'⟩ := hchain
    have h2 : overlapConcat text p.2 (q :: t) =
        ((q :: t).map (fun r => jsSlice text r.1 r.2)).flatten := by
      rw [← h1]
      exact ih q hchain'
    rw [overlapConcat, Nat.sub_self, List.drop_zero, h2]
    simp

/-- Coverage of a terminating run, as a reusable lemma: at least one chunk,
first start 0, each later chunk starts at or before its predecessor's end,
last end equals the text length, and the overlap-removed concatenation
rebuilds the text. -/
theorem chunkByTokensSpans_covers (text : List Char) (M V fuel : Nat)
    (spans : List (Nat × Nat)) (hM : 1 ≤ M) (htrim : jsTrim text ≠ [])
    (h : chunkByTokensSpans fuel text M V = some spans) :
    spans ≠ [] ∧
    (∃ e0, spans.head? = some (0, e0)) ∧
    List.Chain' (fun p q => q.1 ≤ p.2) spans ∧
    (∃ last, spans.getLast? = some last ∧ last.2 = text.length) ∧
    overlapConcat text 0 spans = text := by
  have hL : 0 < text.length := length_pos_of_jsTrim_ne_nil text htrim
  rw [chunkByTokensSpans, if_neg htrim] at h
  obtain ⟨hne, hhead, hmem, hchain, last, hlast, hlastL⟩ :=
    chunkGo_spec text M V hM fuel 0 spans hL h
  refine ⟨hne, ⟨chunkEnd text M 0, hhead⟩,
    hchain.imp (fun a b hab => hab.2.1), ⟨last, hlast, hlastL⟩, ?_⟩
  cases spans with
  | nil => exact absurd rfl hne
  | cons p rest =>
    have hp0 : p = (0, chunkEnd text M 0) := by
      rw [List.head?_cons] at hhead
      injection hhead
    rw [overlapConcat_eq text rest p 0 (by rw [hp0]) (by rw [hp0]; exact Nat.zero_le _)
      (fun q hq => ⟨(hmem q hq).1, (hmem q hq).2.1⟩)
      (hchain.imp (fun a b hab => ⟨hab.2.1, hab.2.2⟩)) ⟨last, hlast, hlastL⟩]
    simp [jsSlice]

/-- C1 (amended): for every text whose `trim()` is non-empty, every
`maxTokensPerChunk ≥ 1` and every `overlapTokens`, a terminating
`chunkByTokens` run covers the input with no gaps: there is at least one
chunk, the first chunk starts at offset 0, each later chunk starts at or
before its predecessor's end, the last chunk ends exactly at the text length,
and concatenating the chunks with each chunk's overlap with its predecessor
removed rebuilds the text.  (The claim as frozen says "non-empty input"; a
whitespace-only input is the counterexample, see
`chunkByTokens_coverage_counterexample`.) -/
theorem chunkByTokens_coverage (text : List Char) (M V fuel : Nat)
    (spans : List (Nat × Nat)) (hM : 1 ≤ M) (htrim : jsTrim text ≠ [])
    (h : chunkByTokensSpans fuel text M V = some spans) :
    spans ≠ [] ∧
    (∃ e0, spans.head? = some (0, e0)) ∧
    List.Chain' (fun p q => q.1 ≤ p.2) spans ∧
    (∃ last, spans.getLast? = some last ∧ last.2 = text.length) ∧
    overlapConcat text 0 spans = text :=
  chunkByTokensSpans_covers text M V fuel spans hM htrim h

/-- C1 as frozen is false on a whitespace-only (hence non-empty) input: the
run terminates with zero chunks, so no chunk sequence covers `[0, 1)`. -/
theorem chunkByTokens_coverage_counterexample :
    ([' '] : List Char) ≠ [] ∧
    chunkByTokensSpans 5 [' '] 2800 300 = some [] := by
  exact ⟨by decide, by decide⟩

theorem chunkByTokens_coverage_witness :
    (1 ≤ 3 ∧ jsTrim "abcdefghijklmnopqrstuvwx".toList ≠ [] ∧
      chunkByTokensSpans 3 "abcdefghijklmnopqrstuvwx".toList 3 3 =
        some [(0, 12), (12, 24)]) ∧
    (([(0, 12), (12, 24)] : List (Nat × Nat)) ≠ [] ∧
      (∃ e0, ([(0, 12), (12, 24)] : List (Nat × Nat)).head? = some (0, e0)) ∧
      List.Chain' (fun p q => q.1 ≤ p.2) ([(0, 12), (12, 24)] : List (Nat × Nat)) ∧
      (∃ last, ([(0, 12), (12, 24)] : List (Nat × Nat)).getLast? = some last ∧
        last.2 = "abcdefghijklmnopqrstuvwx".toList.length) ∧
      overlapConcat "abcdefghijklmnopqrstuvwx".toList 0 [(0, 12), (12, 24)] =
        "abcdefghijklmnopqrstuvwx".toList) :=
  ⟨⟨by decide, by decide, by decide⟩,
    chunkByTokens_coverage "abcdefghijklmnopqrstuvwx".toList 3 3 3 [(0, 12), (12, 24)]
      (by decide) (by decide) (by decide)⟩

/-- C2 (confirmed, and slightly stronger than frozen): for every input text,
every `maxTokensPerChunk ≥ 1` and every overlap, *every* chunk of a
terminating `chunkByTokens` run — the final one included — has heuristic
token count at most `maxTokensPerChunk`. -/
theorem chunkByTokens_token_ceiling (text : List Char) (M V fuel : Nat)
    (chunks : List (List Char)) (hM : 1 ≤ M)
    (h : chunkByTokensL fuel text M V = some chunks) :
    ∀ c ∈ chunks, tokH c ≤ M := by
  rw [chunkByTokensL] at h
  cases hsp : chunkByTokensSpans fuel text M V with
  | none =>
    rw [hsp] at h
    cases h
  | some spans =>
    rw [hsp, Option.map_some'] at h
    injection h with h
    subst h
    intro c hc
    rw [List.mem_map] at hc
    obtain ⟨p, hp, rfl⟩ := hc
    rw [chunkByTokensSpans] at hsp
    by_cases htrim : jsTrim text = []
    · rw [if_pos htrim] at hsp
      injection hsp with hsp
      subst hsp
      cases hp
    · rw [if_neg htrim] at hsp
      have hL := length_pos_of_jsTrim_ne_nil text htrim
      obtain ⟨_, _, hmem, _, _⟩ := chunkGo_spec text M V hM fuel 0 spans hL hsp
      obtain ⟨h1, h2, h3⟩ := hmem p hp
      simp only [tokH, jsSlice_length]
      omega

theorem chunkByTokens_token_ceiling_witness :
    (1 ≤ 1 ∧ chunkByTokensL 9 "ab.cd".toList 1 0 =
      some ["ab.c".toList, "d".toList]) ∧
    (∀ c ∈ ["ab.c".toList, "d".toList], tokH c ≤ 1) :=
  ⟨⟨by decide, by decide⟩,
    chunkByTokens_token_ceiling "ab.cd".toList 1 0 9 ["ab.c".toList, "d".toList]
      (by decide) (by decide)⟩

/-- C3 fails as frozen: the claim promises termination for every valid
parameter pair, but with `maxTokensPerChunk = 1`, `overlapTokens = 1` on a
10-character text with no sentence stops the advance is `4 - 4 = 0` and the
clamp comparison `0 ≤ 4 - 10` is false, so `startChar` returns to 0 forever:
no amount of fuel reaches the loop exit. -/
theorem chunkByTokens_termination_counterexample :
    ¬ chunkTerminates (List.replicate 10 'a') 1 1 := by
  rintro ⟨fuel, spans, h⟩
  rw [chunkByTokensSpans, if_neg (by decide)] at h
  rw [chunkGo_none_small (List.replicate 10 'a') 1 1 (by decide) (by decide) (by decide)
    fuel 0 (by decide) (Or.inl (by decide))] at h
  cases h

/-- C3 (amended): `chunkByTokens` terminates on every input text and every
overlap whenever `maxTokensPerChunk ≥ 3` (so in particular at the shipped
configuration 2800/300): each iteration's chunk end strictly grows.  For
`maxTokensPerChunk ≤ 2` with `overlapTokens ≥ maxTokensPerChunk` the loop can
diverge, see `chunkByTokens_termination_counterexample`. -/
theorem chunkByTokens_terminates_of_budget (text : List Char) (M V : Nat)
    (hM3 : 3 ≤ M) : chunkTerminates text M V := by
  by_cases htrim : jsTrim text = []
  · exact ⟨0, [], by rw [chunkByTokensSpans, if_pos htrim]⟩
  · have hL := length_pos_of_jsTrim_ne_nil text htrim
    have hend := chunkEnd_lb text M 0 (by omega) hL
    obtain ⟨spans, h⟩ := chunkGo_some_of_three text M V hM3 text.length 0 hL (by omega)
    exact ⟨text.length, spans, by rw [chunkByTokensSpans, if_neg htrim]; exact h⟩

theorem chunkByTokens_terminates_of_budget_witness :
    3 ≤ 2800 ∧ chunkTerminates "aaaa".toList 2800 300 :=
  ⟨by decide, chunkByTokens_terminates_of_budget "aaaa".toList 2800 300 (by decide)⟩

/-- C10 (confirmed): whenever the configured overlap in characters
(`overlapTokens·4`) is at least 10 and no emitted chunk is shorter than it,
the progress clamp resets every advance to exactly the previous chunk's end:
consecutive chunks share no characters, and the plain concatenation of the
chunks is the original text — the configured overlap is never applied. -/
theorem chunkByTokens_overlap_clamp_reset (text : List Char) (M V fuel : Nat)
    (spans : List (Nat × Nat)) (hM : 1 ≤ M) (htrim : jsTrim text ≠ [])
    (hV : 10 ≤ V * 4)
    (h : chunkByTokensSpans fuel text M V = some spans)
    (hlen : ∀ p ∈ spans, V * 4 ≤ p.2 - p.1) :
    List.Chain' (fun p q : Nat × Nat => q.1 = p.2) spans ∧
    (spans.map (fun p => jsSlice text p.1 p.2)).flatten = text := by
  have hL : 0 < text.length := length_pos_of_jsTrim_ne_nil text htrim
  have h' := h
  rw [chunkByTokensSpans, if_neg htrim] at h'
  obtain ⟨hne, hhead, hmem, hchain, last, hlast, hlastL⟩ :=
    chunkGo_spec text M V hM fuel 0 spans hL h'
  have hchainEq := chain_eq_of_wide V hV spans hchain hlen
  refine ⟨hchainEq, ?_⟩
  obtain ⟨_, _, _, _, hconcat⟩ := chunkByTokensSpans_covers text M V fuel spans hM htrim h
  cases spans with
  | nil => exact absurd rfl hne
  | cons p rest =>
    have hp0 : p = (0, chunkEnd text M 0) := by
      rw [List.head?_cons] at hhead
      injection hhead
    rw [← overlapConcat_eq_flatten text rest p hchainEq]
    rw [show p.1 = 0 by rw [hp0]]
    exact hconcat

theorem chunkByTokens_overlap_clamp_reset_witness :
    (1 ≤ 3 ∧ jsTrim (List.replicate 24 'x') ≠ [] ∧ 10 ≤ 3 * 4 ∧
      chunkByTokensSpans 3 (List.replicate 24 'x') 3 3 = some [(0, 12), (12, 24)] ∧
      (∀ p ∈ ([(0, 12), (12, 24)] : List (Nat × Nat)), 3 * 4 ≤ p.2 - p.1)) ∧
    (List.Chain' (fun p q : Nat × Nat => q.1 = p.2)
      ([(0, 12), (12, 24)] : List (Nat × Nat)) ∧
      (([(0, 12), (12, 24)] : List (Nat × Nat)).map
        (fun p => jsSlice (List.replicate 24 'x') p.1 p.2)).flatten =
        List.replicate 24 'x') :=
  ⟨⟨by decide, by decide, by decide, by decide, by decide⟩,
    chunkByTokens_overlap_clamp_reset (List.replicate 24 'x') 3 3 3 [(0, 12), (12, 24)]
      (by decide) (by decide) (by decide) (by decide) (by decide)⟩

/-! ## Lemmas about the budgeted selector -/

theorem tokH_pos (l : List Char) (h : l ≠ []) : 1 ≤ tokH l := by
  have : 0 < l.length := List.length_pos.mpr h
  simp only [tokH]
  omega

theorem secText_ne_nil (s : Section) : secText s ≠ [] := by
  simp [secText]

theorem pickText_ne_nil (s : Section) : pickText s ≠ [] := by
  simp [pickText]

theorem mem_insertRanked (x a : ScoredSec) :
    ∀ l, a ∈ insertRanked x l ↔ a = x ∨ a ∈ l := by
  intro l
  induction l with
  | nil => simp [insertRanked]
  | cons y ys ih =>
    simp only [insertRanked]
    split
    · simp [List.mem_cons]
    · simp only [List.mem_cons, ih]
      tauto

theorem mem_sortRanked (a : ScoredSec) : ∀ l, a ∈ sortRanked l ↔ a ∈ l := by
  intro l
  induction l with
  | nil => simp [sortRanked]
  | cons x xs ih =>
    simp only [sortRanked, mem_insertRanked, List.mem_cons, ih]

/-- Every ranked entry's token count is positive: it is the heuristic count of
the non-empty string `=== title ===\nbody`. -/
theorem rankedOf_tokens_pos (text : List Char) :
    ∀ r ∈ rankedOf text, 1 ≤ r.tokens := by
  intro r hr
  rw [rankedOf, mem_sortRanked] at hr
  rw [List.mem_map] at hr
  obtain ⟨s, _, rfl⟩ := hr
  exact tokH_pos _ (secText_ne_nil s)

/-- Once the running total has reached the budget exactly, nothing further
fits (all token counts being positive), so the spec's skip-scan also accepts
nothing more. -/
theorem skipScan_at_budget (B : Nat) :
    ∀ l, (∀ r ∈ l, 1 ≤ r.tokens) → skipScan B B l = [] := by
  intro l
  induction l with
  | nil =>
    intro _
    rfl
  | cons r rest ih =>
    intro h
    simp only [skipScan]
    rw [if_neg (by have := h r (by simp); omega)]
    exact ih (fun x hx => h x (by simp [hx]))

/-- The embedded greedy loop (with its `used >= maxTokens` break) computes the
same accepted list as the spec's skip-scan, for positive token counts. -/
theorem greedyGo_eq_skipScan (B : Nat) :
    ∀ l used, used ≤ B → (∀ r ∈ l, 1 ≤ r.tokens) →
      greedyGo B used l = skipScan B used l := by
  intro l
  induction l with
  | nil =>
    intros
    rfl
  | cons r rest ih =>
    intro used hused hall
    have hrest : ∀ x ∈ rest, 1 ≤ x.tokens := fun x hx => hall x (by simp [hx])
    simp only [greedyGo, skipScan]
    by_cases h1 : B < used + r.tokens
    · rw [if_pos h1, if_neg (show ¬ used + r.tokens ≤ B by omega)]
      exact ih used hused hrest
    · rw [if_neg h1, if_pos (show used + r.tokens ≤ B by omega)]
      by_cases h2 : B ≤ used + r.tokens
      · rw [if_pos h2]
        have heq : used + r.tokens = B := by omega
        rw [heq, skipScan_at_budget B rest hrest]
      · rw [if_neg h2]
        rw [ih (used + r.tokens) (by omega) hrest]

/-- The greedy loop never exceeds the budget: running total plus the sum of
accepted token counts stays within it. -/
theorem greedyGo_sum_le (B : Nat) :
    ∀ l used, used ≤ B →
      used + ((greedyGo B used l).map (fun r => r.tokens)).sum ≤ B := by
  intro l
  induction l with
  | nil =>
    intro used hused
    simpa using hused
  | cons r rest ih =>
    intro used hused
    simp only [greedyGo]
    by_cases h1 : B < used + r.tokens
    · rw [if_pos h1]
      exact ih used hused
    · rw [if_neg h1]
      by_cases h2 : B ≤ used + r.tokens
      · rw [if_pos h2]
        simp only [List.map_cons, List.map_nil, List.sum_cons, List.sum_nil]
        omega
      · rw [if_neg h2]
        have := ih (used + r.tokens) (by omega)
        simp only [List.map_cons, List.sum_cons]
        omega

/-- C5 (confirmed): in `selectRelevantText`'s greedy accumulation over the
sections ranked by descending composite score, the embedded loop (with its
`used >= maxTokens` break) accepts exactly the sections accepted by the
skip-scan policy — a section is accepted iff the running total plus its own
token count fits the budget, and a non-fitting section is skipped without
ending the scan, so later smaller sections can still be accepted — and the
accepted token counts never sum to more than the budget. -/
theorem selectRelevantText_greedy_skip (text : List Char) (maxTokens : Nat) :
    greedyGo maxTokens 0 (rankedOf text) = skipScan maxTokens 0 (rankedOf text) ∧
    ((greedyGo maxTokens 0 (rankedOf text)).map (fun r => r.tokens)).sum ≤ maxTokens :=
  ⟨greedyGo_eq_skipScan maxTokens (rankedOf text) 0 (Nat.zero_le maxTokens)
      (rankedOf_tokens_pos text),
    by simpa using greedyGo_sum_le maxTokens (rankedOf text) 0 (Nat.zero_le maxTokens)⟩

/-- The selector's binary-search fallback is the longest prefix whose
heuristic token count fits the budget, namely `min(length, 4·budget)`
characters. -/
theorem selectFallback_eq (text : List Char) (maxTokens : Nat) (htext : text ≠ [])
    (hB : 1 ≤ maxTokens) :
    selectFallback text maxTokens = jsSlice text 0 (min text.length (maxTokens * 4)) := by
  have hlen : 0 < text.length := List.length_pos.mpr htext
  simp only [selectFallback]
  rw [bsLoop_threshold _ (maxTokens * 4) _ _ _ _ (by omega)]
  · rw [if_pos (show (0 : Nat) < min text.length (maxTokens * 8) + 1 by omega),
      if_neg (show ¬ maxTokens * 4 < 0 by omega),
      if_neg (show ¬ min (min text.length (maxTokens * 8) + 1 - 1) (maxTokens * 4) = 0 by
        omega)]
    congr 1
    omega
  · intro m _ hm
    rw [decide_eq_true_iff]
    have hmL : m ≤ text.length := by omega
    have : (jsSlice text 0 m).length = m := by
      rw [jsSlice_length]
      omega
    simp only [tokH]
    rw [this]
    omega

/-- C4 (confirmed): for every non-empty input text and every
`tokenBudget ≥ 1`, `selectRelevantText` (with the heuristic oracle) returns a
non-empty string: either the accepted sections, each contributing a non-empty
`\n\n=== title ===\nbody` block, or a non-empty binary-search prefix of the
raw text. -/
theorem selectRelevantText_nonempty (text : List Char) (maxTokens : Nat)
    (htext : text ≠ []) (hB : 1 ≤ maxTokens) :
    selectRelevantText text maxTokens ≠ [] := by
  have hlen : 0 < text.length := List.length_pos.mpr htext
  simp only [selectRelevantText]
  cases hg : greedyGo maxTokens 0 (rankedOf text) with
  | nil =>
    rw [if_pos (by simp)]
    rw [selectFallback_eq text maxTokens htext hB]
    have : (jsSlice text 0 (min text.length (maxTokens * 4))).length =
        min text.length (maxTokens * 4) := by
      rw [jsSlice_length]
      omega
    intro hnil
    rw [hnil] at this
    simp at this
    omega
  | cons r rest =>
    rw [if_neg (by simp)]
    simp only [List.map_cons, List.flatten_cons]
    intro hnil
    rw [List.append_eq_nil] at hnil
    exact pickText_ne_nil r.sec hnil.1

theorem selectRelevantText_nonempty_witness :
    ("hi".toList ≠ [] ∧ 1 ≤ 1) ∧ selectRelevantText "hi".toList 1 ≠ [] :=
  ⟨⟨by decide, by decide⟩,
    selectRelevantText_nonempty "hi".toList 1 (by decide) (by decide)⟩

/-! ## Lemmas about the snippet extractor, and claims C6–C9 -/

theorem insertWin_ne_nil (x : ScoredWindow) : ∀ l, insertWin x l ≠ [] := by
  intro l
  cases l with
  | nil => simp [insertWin]
  | cons y ys =>
    simp only [insertWin]
    split <;> simp

theorem sortWins_ne_nil (l : List ScoredWindow) (h : l ≠ []) : sortWins l ≠ [] := by
  cases l with
  | nil => exact absurd rfl h
  | cons x xs => exact insertWin_ne_nil x (sortWins xs)

/-- With non-empty text the window loop always emits at least its first
window. -/
theorem windowsGo_ne_nil (text : List Char) (keywords : List (List Char))
    (W stride : Nat) (htext : 0 < text.length) :
    windowsGo text keywords W stride (text.length + 1) 0 ≠ [] := by
  simp only [windowsGo]
  rw [if_pos htext]
  split <;> simp

theorem topWindowsOf_ne_nil (text question : List Char) (targetTokens : Nat)
    (topKOpt ovPmOpt : Option Nat) (htext : text ≠ []) :
    topWindowsOf text question targetTokens topKOpt ovPmOpt ≠ [] := by
  have hlen : 0 < text.length := List.length_pos.mpr htext
  simp only [topWindowsOf]
  have hs := sortWins_ne_nil _ (windowsGo_ne_nil text (questionKeywords question)
    (targetTokens * 4) (strideOf (targetTokens * 4) (ovPmOpt.getD 500)) hlen)
  cases hw : sortWins (windowsGo text (questionKeywords question) (targetTokens * 4)
      (strideOf (targetTokens * 4) (ovPmOpt.getD 500)) (text.length + 1) 0) with
  | nil => exact absurd hw hs
  | cons c cs =>
    have : ∃ m, max 1 (topKOpt.getD 3) = m + 1 := ⟨max 1 (topKOpt.getD 3) - 1, by omega⟩
    obtain ⟨m, hm⟩ := this
    rw [hm]
    simp

/-- C6 (amended): with at least one question keyword, the head-of-text
fallback is taken only when no windows were generated at all, which happens
exactly when the text is empty; when windows exist — even if every one of
them scores zero — the function returns the top-K windows joined with the
`"\n\n---\n\n"` divider, not the first `windowChars` characters. -/
theorem extractRelevantSnippets_top_join (text question : List Char)
    (targetTokens : Nat) (topKOpt ovPmOpt : Option Nat)
    (hk : questionKeywords question ≠ []) (htext : text ≠ []) :
    topWindowsOf text question targetTokens topKOpt ovPmOpt ≠ [] ∧
    extractRelevantSnippets text question targetTokens topKOpt ovPmOpt =
      joinSep "\n\n---\n\n".toList
        ((topWindowsOf text question targetTokens topKOpt ovPmOpt).map
          (fun w => w.s)) := by
  have htop := topWindowsOf_ne_nil text question targetTokens topKOpt ovPmOpt htext
  refine ⟨htop, ?_⟩
  simp only [extractRelevantSnippets]
  rw [if_neg hk, if_neg htop]

/-- C6 fails as frozen: all three windows of this text score zero for the
question's keyword, yet the function returns the three windows joined by the
divider rather than the first `windowChars` characters. -/
theorem extractRelevantSnippets_counterexample :
    questionKeywords "cats".toList ≠ [] ∧
    (windowsGo (List.replicate 8 'b') (questionKeywords "cats".toList) 4 2 9 0).all
      (fun w => w.score == 0) = true ∧
    extractRelevantSnippets (List.replicate 8 'b') "cats".toList 1 none none ≠
      jsSlice (List.replicate 8 'b') 0 (1 * 4) :=
  ⟨by decide, by decide, by decide⟩

theorem extractRelevantSnippets_top_join_witness :
    (questionKeywords "cats".toList ≠ [] ∧ List.replicate 8 'b' ≠ ([] : List Char)) ∧
    (topWindowsOf (List.replicate 8 'b') "cats".toList 1 none none ≠ [] ∧
      extractRelevantSnippets (List.replicate 8 'b') "cats".toList 1 none none =
        joinSep "\n\n---\n\n".toList
          ((topWindowsOf (List.replicate 8 'b') "cats".toList 1 none none).map
            (fun w => w.s))) :=
  ⟨⟨by decide, by decide⟩,
    extractRelevantSnippets_top_join (List.replicate 8 'b') "cats".toList 1 none none
      (by decide) (by decide)⟩

/-- C7 (code bug): the header regex carries the `i` flag, so its
`[A-Z][A-Z\s]{2,}` alternative matches any line starting with three
letters-or-whitespace of either case.  An ordinary lowercase line such as
`"the workers wear boots"` is therefore treated as a heading instead of
accumulating into the current section's body; on this two-line input every
line becomes a heading, every body stays empty and `splitIntoSections`
returns no sections at all, where the spec expects one section titled
"Safety" whose body is the lowercase line. -/
theorem splitIntoSections_lowercase_heading_bug :
    headerTest "the workers wear boots".toList = true ∧
    splitIntoSections "Safety\nthe workers wear boots".toList = [] :=
  ⟨by decide, by decide⟩

/-! ## The escalation controller: claims C8 and C9 -/

theorem isPrefixL_iff (pat : List Char) :
    ∀ l, isPrefixL pat l = true ↔ pat <+: l := by
  induction pat with
  | nil =>
    intro l
    simp [isPrefixL, List.nil_prefix]
  | cons a as ih =>
    intro l
    cases l with
    | nil =>
      simp only [isPrefixL, Bool.false_eq_true, false_iff]
      rintro ⟨t, ht⟩
      cases ht
    | cons b bs =>
      simp only [isPrefixL, Bool.and_eq_true, beq_iff_eq, ih bs]
      constructor
      · rintro ⟨rfl, t, ht⟩
        exact ⟨t, by rw [List.cons_append, ht]⟩
      · rintro ⟨t, ht⟩
        injection ht with h1 h2
        exact ⟨h1, ⟨t, h2⟩⟩

theorem containsL_iff (pat : List Char) :
    ∀ hay, containsL hay pat = true ↔ pat <:+: hay := by
  intro hay
  induction hay with
  | nil =>
    simp only [containsL, isPrefixL_iff, List.prefix_nil, List.infix_nil]
  | cons h t ih =>
    simp only [containsL, Bool.or_eq_true, isPrefixL_iff, ih,
      List.infix_cons_iff]

/-- C8 (confirmed): the controller issues the second completion pass exactly
when the first-pass answer contains, case-insensitively, one of the fixed
low-confidence phrases; in particular a first answer containing
"I can't find this in the document" triggers the second pass, and a first
answer with no marker phrase is returned unchanged after a single pass. -/
theorem answerQuestion_escalation_iff_markers :
    (∀ pass1 pass2 : PassResult,
      (answerQuestionFlow pass1 pass2).2 = 2 ↔
        ∃ m ∈ lowConfidenceMarkers, m <:+: lowerL pass1.answer) ∧
    (∀ pass2 : PassResult,
      (answerQuestionFlow
        ⟨"I can't find this in the document".toList, ⟨5, 7⟩⟩ pass2).2 = 2) ∧
    (∀ pass2 : PassResult,
      answerQuestionFlow ⟨"The PPE required is boots.".toList, ⟨5, 7⟩⟩ pass2 =
        (⟨"The PPE required is boots.".toList, ⟨5, 7⟩⟩, 1)) := by
  refine ⟨?_, ?_, ?_⟩
  · intro pass1 pass2
    have hflow : (answerQuestionFlow pass1 pass2).2 =
        (if lowConfidence pass1.answer = true then 2 else 1) := by
      rw [answerQuestionFlow]
      cases h : lowConfidence pass1.answer <;> simp [h]
    rw [hflow]
    by_cases hlc : lowConfidence pass1.answer = true
    · rw [if_pos hlc]
      have hm : ∃ m ∈ lowConfidenceMarkers, m <:+: lowerL pass1.answer := by
        rw [lowConfidence, List.any_eq_true] at hlc
        obtain ⟨m, hmem, hc⟩ := hlc
        exact ⟨m, hmem, (containsL_iff m _).mp hc⟩
      exact iff_of_true rfl hm
    · rw [if_neg hlc]
      have hm : ¬ ∃ m ∈ lowConfidenceMarkers, m <:+: lowerL pass1.answer := by
        rintro ⟨m, hmem, hinf⟩
        apply hlc
        rw [lowConfidence, List.any_eq_true]
        exact ⟨m, hmem, (containsL_iff m _).mpr hinf⟩
      exact iff_of_false (by omega) hm
  · intro pass2
    rw [answerQuestionFlow]
    rw [show lowConfidence "I can't find this in the document".toList = true from
      by decide]
    rfl
  · intro pass2
    rw [answerQuestionFlow]
    rw [show lowConfidence "The PPE required is boots.".toList = false from by decide]
    rfl

/-- C9 (confirmed): whenever the controller escalates to the second pass, the
returned usage sums both passes' input and output token counts. -/
theorem answerQuestion_escalation_cost (pass1 pass2 : PassResult)
    (h : (answerQuestionFlow pass1 pass2).2 = 2) :
    (answerQuestionFlow pass1 pass2).1.usage.inputTokens =
      pass1.usage.inputTokens + pass2.usage.inputTokens ∧
    (answerQuestionFlow pass1 pass2).1.usage.outputTokens =
      pass1.usage.outputTokens + pass2.usage.outputTokens := by
  by_cases hlc : lowConfidence pass1.answer
  · simp [answerQuestionFlow, hlc]
  · exfalso
    simp [answerQuestionFlow, hlc] at h

theorem answerQuestion_escalation_cost_witness :
    ((answerQuestionFlow ⟨"Unclear.".toList, ⟨5, 7⟩⟩
        ⟨"Found.".toList, ⟨11, 13⟩⟩).2 = 2) ∧
    ((answerQuestionFlow ⟨"Unclear.".toList, ⟨5, 7⟩⟩
        ⟨"Found.".toList, ⟨11, 13⟩⟩).1.usage.inputTokens =
      (⟨"Unclear.".toList, ⟨5, 7⟩⟩ : PassResult).usage.inputTokens +
        (⟨"Found.".toList, ⟨11, 13⟩⟩ : PassResult).usage.inputTokens ∧
      (answerQuestionFlow ⟨"Unclear.".toList, ⟨5, 7⟩⟩
        ⟨"Found.".toList, ⟨11, 13⟩⟩).1.usage.outputTokens =
      (⟨"Unclear.".toList, ⟨5, 7⟩⟩ : PassResult).usage.outputTokens +
        (⟨"Found.".toList, ⟨11, 13⟩⟩ : PassResult).usage.outputTokens) :=
  ⟨by decide, answerQuestion_escalation_cost _ _ (by decide)⟩
